import Mathlib

/-!
Verification development for the markdown-to-memory extraction and
retrieval-augmented chat pipeline (`markdown_processor.py`, `memory_manager.py`).

Strings are modelled as `List Char`. Python's `str.split('\n')`, `str.strip()`,
the heading regex of `extract_sections`, the bullet regex of
`extract_conversation_entries`, the three timestamp grammars of `parse_date`
together with the `strptime` format attempts, the retry loop of
`MemoryManager.add_fact`, and the retrieve-then-generate path of
`MemoryManager.chat` are each translated below directly from the source.
-/

/-- Python regex `\s` / `str.strip` whitespace, restricted to the ASCII range
(the only whitespace characters exercised by the pipeline). -/
def isWS (c : Char) : Bool :=
  c = ' ' || c = '\t' || c = '\n' || c = '\r' || c = '\x0b' || c = '\x0c'

/-- `s.split('\n')`: always returns at least one (possibly empty) line. -/
def splitLines : List Char → List (List Char)
  | [] => [[]]
  | c :: r =>
    if c = '\n' then [] :: splitLines r
    else match splitLines r with
      | l :: ls => (c :: l) :: ls
      | [] => [[c]]

/-- Accumulator form of `splitLines`; `pre` is the partial current line. -/
def splitLinesAux (pre : List Char) : List Char → List (List Char)
  | [] => [pre]
  | c :: r => if c = '\n' then pre :: splitLinesAux [] r else splitLinesAux (pre ++ [c]) r

/-- `'\n'.join(lines)`. -/
def joinLines : List (List Char) → List Char
  | [] => []
  | [l] => l
  | l :: l' :: ls => l ++ '\n' :: joinLines (l' :: ls)

/-- Leading-whitespace removal (`str.lstrip`). -/
def trimLeft (s : List Char) : List Char := s.dropWhile isWS

/-- Trailing-whitespace removal (`str.rstrip`). -/
def trimRight : List Char → List Char
  | [] => []
  | c :: r =>
    match trimRight r with
    | [] => if isWS c then [] else [c]
    | r' => c :: r'

/-- `str.strip()`. -/
def trim (s : List Char) : List Char := trimRight (trimLeft s)

/-! ## Fact Store Adapter: `MemoryManager.add_fact`

The mem0 backend is abstracted as an oracle giving, for each 0-based attempt
index, either a successful add result or a raised exception.  The fact text,
user id and metadata do not influence the control flow of the source loop, so
they are not parameters of the model. -/

/-- The dictionary returned by `memory.add`; only its `results` list (the
created records) matters to the pipeline. -/
structure AddResult where
  results : List String
  deriving DecidableEq, Repr

/-- Outcome of one backend `memory.add` call: a returned result or an
exception. -/
inductive AddOutcome where
  | ok (res : AddResult)
  | exn
  deriving DecidableEq, Repr

/-- One iteration of the `add_fact` loop body: on a backend return value the
loop returns it at once (one call made); on an exception the loop's remaining
iterations (`rest`) decide the result, at the cost of this attempt's call.
When no iterations remain, `rest = (none, 0)` and the loop has just returned
`None` after its last failing call. -/
def add_fact_step (o : AddOutcome) (rest : Option AddResult × Nat) : Option AddResult × Nat :=
  match o with
  | .ok r => (some r, 1)
  | .exn => (rest.1, rest.2 + 1)

/-- The retry loop of `add_fact` (`for attempt in range(max_retries)`), started
at attempt index `attempt` with `rem` attempts remaining.  Returns the value
`add_fact` returns together with the number of backend calls made. -/
def add_fact_go (b : Nat → AddOutcome) : Nat → Nat → Option AddResult × Nat
  | _, 0 => (none, 0)
  | attempt, rem + 1 => add_fact_step (b attempt) (add_fact_go b (attempt + 1) rem)

/-- `MemoryManager.add_fact`: the returned value (`None` after exhausting all
retries; the backend's result dict, zero-record or not, on first success). -/
def add_fact (b : Nat → AddOutcome) (maxRetries : Nat) : Option AddResult :=
  (add_fact_go b 0 maxRetries).1

/-- Number of backend `memory.add` calls performed by `add_fact`. -/
def add_fact_calls (b : Nat → AddOutcome) (maxRetries : Nat) : Nat :=
  (add_fact_go b 0 maxRetries).2

/-- `if result and result.get('results'): added_facts += 1` — the contribution
of one `add_fact` return value to `process_file`'s `added_facts` counter. -/
def addedIncr : Option AddResult → Nat
  | some r => if r.results.isEmpty then 0 else 1
  | none => 0

/-- The fact-adding loop of `MarkdownProcessor.process_file`, restricted to its
`added_facts` counter: one `add_fact` call per fact, incrementing only on a
non-empty created-record list. -/
def process_facts_added (add : String → Option AddResult) (facts : List String) : Nat :=
  facts.foldl (fun acc f => acc + addedIncr (add f)) 0

/-! ## Section Splitter: `MarkdownProcessor.extract_sections` -/

/-- One section: `{'level': ..., 'header': ..., 'content': ...}`. -/
structure Section where
  level : Nat
  heading : List Char
  body : List Char
  deriving DecidableEq, Repr

/-- `re.match(r'^(#{1,3})\s+(.+)$', line)`.  The regex matches exactly when
the line starts with 1–3 `#` characters (not followed by a fourth `#`),
followed by at least one whitespace character and at least one further
character; group 1 is the run of `#`s and, after the source's
`.group(2).strip()`, the heading is the trimmed remainder of the line. -/
def headerMatch (l : List Char) : Option (Nat × List Char) :=
  let k := (l.takeWhile (· = '#')).length
  let rest := l.drop k
  if 1 ≤ k ∧ k ≤ 3 ∧ 2 ≤ rest.length ∧ isWS (rest.headD 'x') then
    some (k, trim rest)
  else
    none

/-- The line loop of `extract_sections`: `cur` is the open section's
`(level, header)` (`current_section`), `acc` its collected content lines
(`current_content`); lines before the first heading are dropped because
`current_section` is still `None`. -/
def sectionsLoop : Option (Nat × List Char) → List (List Char) → List (List Char) → List Section
  | cur, acc, [] =>
    match cur with
    | some (k, h) => [⟨k, h, joinLines acc⟩]
    | none => []
  | cur, acc, l :: ls =>
    match headerMatch l with
    | some (k, h) =>
      (match cur with
       | some (k₀, h₀) => [⟨k₀, h₀, joinLines acc⟩]
       | none => []) ++ sectionsLoop (some (k, h)) [] ls
    | none =>
      match cur with
      | some _ => sectionsLoop cur (acc ++ [l]) ls
      | none => sectionsLoop cur acc ls

/-- `MarkdownProcessor.extract_sections`: split into heading-delimited
sections; if no heading line was found and the text is non-blank, the whole
stripped document becomes one synthetic level-0 section. -/
def extract_sections (md : List Char) : List Section :=
  match sectionsLoop none [] (splitLines md) with
  | [] =>
    match trim md with
    | [] => []
    | c :: cs => [⟨0, "General Facts from File".data, c :: cs⟩]
  | secs => secs

/-- The canonical heading line carrying level `k` and heading text `h`. -/
def mkHeadLine (k : Nat) (h : List Char) : List Char :=
  List.replicate k '#' ++ ' ' :: h

/-- Rendering of one Section back to markdown lines: its heading marker plus
heading text, then its body lines. -/
def renderSectionLines (s : Section) : List (List Char) :=
  mkHeadLine s.level s.heading :: splitLines s.body

/-- Concatenation of all sections, each rendered as heading-marker + heading +
body (the reconstruction of C6's round-trip property). -/
def reconstruct (secs : List Section) : List Char :=
  joinLines (secs.flatMap renderSectionLines)

/-- Well-formedness of a line list for the round-trip: every heading line is
written canonically (`'#' * level + ' ' + trimmed heading`) and is followed by
at least one non-heading line. -/
def goodTail : List (List Char) → Bool
  | [] => true
  | l :: ls =>
    match headerMatch l with
    | some (k, h) =>
      decide (l = mkHeadLine k h) &&
      (match ls with
       | [] => false
       | l' :: _ => (headerMatch l').isNone) &&
      goodTail ls
    | none => goodTail ls

/-- Well-formed document for the round-trip: the first line is a heading and
`goodTail` holds for all lines. -/
def wfDoc (md : List Char) : Bool :=
  match splitLines md with
  | [] => false
  | l :: ls => (headerMatch l).isSome && goodTail (l :: ls)

/-! ## Date Parser: `MarkdownProcessor.parse_date`

Backtracking regex/strptime matching is modelled by parsers returning the list
of all `(value, rest)` alternatives in the engine's preference order; the head
of the list is the match the engine commits to. -/

/-- Backtracking parser: all alternatives in preference order. -/
def Prs (α : Type) := List Char → List (α × List Char)

instance : Monad Prs where
  pure a := fun cs => [(a, cs)]
  bind p f := fun cs => (p cs).flatMap (fun x => f x.1 x.2)

/-- A parsed timestamp (`datetime.datetime`). -/
structure DateTime where
  year : Nat
  month : Nat
  day : Nat
  hour : Nat
  minute : Nat
  second : Nat
  deriving DecidableEq, Repr

/-- Numeric value of a decimal digit. -/
def dv (c : Char) : Nat := c.toNat - '0'.toNat

/-- Lower-casing for the ASCII letters compared case-insensitively by
`strptime` (`%p`, `%b`, `%B` are compiled with `re.IGNORECASE`). -/
def lowerC (c : Char) : Char :=
  if 'A' ≤ c ∧ c ≤ 'Z' then Char.ofNat (c.toNat + 32) else c

/-- `\d{lo,hi}` followed by nothing else of its own: all consumptions of
exactly `n` digits, `n` from `hi` down to `lo` (greedy order). -/
def gDigits (lo hi : Nat) : Prs (List Char) := fun cs =>
  (List.range (hi + 1 - lo)).filterMap (fun i =>
    let n := hi - i
    let t := cs.take n
    if t.length = n ∧ t.all Char.isDigit then some (t, cs.drop n) else none)

/-- A literal string. -/
def gLit (s : String) : Prs (List Char) := fun cs =>
  let l := s.data
  if cs.take l.length = l then [(l, cs.drop l.length)] else []

/-- Ordered alternation of literal strings. -/
def gAlts (ss : List String) : Prs (List Char) := fun cs =>
  ss.flatMap (fun s => gLit s cs)

/-- `p*` for a character class: greedy, longest first. -/
def gStar (p : Char → Bool) : Prs (List Char) := fun cs =>
  let k := (cs.takeWhile p).length
  (List.range (k + 1)).map (fun i => (cs.take (k - i), cs.drop (k - i)))

/-- `p+` for a character class: greedy, longest first, at least one char. -/
def gPlus (p : Char → Bool) : Prs (List Char) := fun cs =>
  let k := (cs.takeWhile p).length
  (List.range k).map (fun i => (cs.take (k - i), cs.drop (k - i)))

/-- `(...)?`: the group first (greedy), then the empty alternative. -/
def gOpt (g : Prs (List Char)) : Prs (List Char) := fun cs =>
  g cs ++ [([], cs)]

/-- Sequencing of text-producing parsers, concatenating the matched text. -/
def gCat (ps : List (Prs (List Char))) : Prs (List Char) :=
  ps.foldr (fun p acc => do
    let x ← p
    let y ← acc
    pure (x ++ y)) (pure [])

/-- Grammar 1: `\d{1,2}/\d{1,2}/\d{2,4}\s+\d{1,2}:\d{2}\s*(?:AM|PM|am|pm)?`. -/
def pattern1 : Prs (List Char) :=
  gCat [gDigits 1 2, gLit "/", gDigits 1 2, gLit "/", gDigits 2 4, gPlus isWS,
        gDigits 1 2, gLit ":", gDigits 2 2, gStar isWS,
        gOpt (gAlts ["AM", "PM", "am", "pm"])]

/-- Grammar 2: `\d{4}-\d{2}-\d{2}\s+\d{2}:\d{2}(?::\d{2})?`. -/
def pattern2 : Prs (List Char) :=
  gCat [gDigits 4 4, gLit "-", gDigits 2 2, gLit "-", gDigits 2 2, gPlus isWS,
        gDigits 2 2, gLit ":", gDigits 2 2, gOpt (gCat [gLit ":", gDigits 2 2])]

/-- Grammar 3:
`\d{1,2}\s+(?:Jan|Feb|Mar|Apr|May|Jun|Jul|Aug|Sep|Oct|Nov|Dec)[a-z]*\s+\d{2,4}`. -/
def pattern3 : Prs (List Char) :=
  gCat [gDigits 1 2, gPlus isWS,
        gAlts ["Jan", "Feb", "Mar", "Apr", "May", "Jun", "Jul", "Aug", "Sep", "Oct", "Nov", "Dec"],
        gStar (fun c => 'a' ≤ c && c ≤ 'z'), gPlus isWS, gDigits 2 4]

/-- The separator-stripping pattern of `extract_conversation_entries`
(`re.split`): grammar 1 followed by `[:\s]*`. -/
def patternSplit : Prs (List Char) :=
  gCat [pattern1, gStar (fun c => c = ':' || isWS c)]

/-- `re.search`: leftmost match; returns `(text before, matched text, rest)`. -/
def reSearch (g : Prs (List Char)) : List Char → Option (List Char × List Char × List Char)
  | [] =>
    match g [] with
    | (m, rest) :: _ => some ([], m, rest)
    | [] => none
  | c :: cs' =>
    match g (c :: cs') with
    | (m, rest) :: _ => some ([], m, rest)
    | [] => (reSearch g cs').map (fun x => (c :: x.1, x.2.1, x.2.2))

/-- `re.search(...).group(1)`: the matched text only. -/
def reSearchTxt (g : Prs (List Char)) (cs : List Char) : Option (List Char) :=
  (reSearch g cs).map (fun x => x.2.1)

/-! ### strptime field parsers (CPython `_strptime` directive regexes) -/

/-- `%m` and `%I`: `1[0-2]|0[1-9]|[1-9]`. -/
def p_m : Prs Nat := fun cs =>
  (match cs with
   | '1' :: c :: r => if '0' ≤ c ∧ c ≤ '2' then [(10 + dv c, r)] else []
   | _ => []) ++
  (match cs with
   | '0' :: c :: r => if '1' ≤ c ∧ c ≤ '9' then [(dv c, r)] else []
   | _ => []) ++
  (match cs with
   | c :: r => if '1' ≤ c ∧ c ≤ '9' then [(dv c, r)] else []
   | _ => [])

/-- `%d`: `3[01]|[12]\d|0[1-9]|[1-9]`. -/
def p_d : Prs Nat := fun cs =>
  (match cs with
   | '3' :: c :: r => if '0' ≤ c ∧ c ≤ '1' then [(30 + dv c, r)] else []
   | _ => []) ++
  (match cs with
   | c :: c' :: r => if ('1' ≤ c ∧ c ≤ '2') ∧ c'.isDigit then [(10 * dv c + dv c', r)] else []
   | _ => []) ++
  (match cs with
   | '0' :: c :: r => if '1' ≤ c ∧ c ≤ '9' then [(dv c, r)] else []
   | _ => []) ++
  (match cs with
   | c :: r => if '1' ≤ c ∧ c ≤ '9' then [(dv c, r)] else []
   | _ => [])

/-- `%y`: exactly two digits. -/
def p_y : Prs Nat := fun cs =>
  match cs with
  | a :: b :: r => if a.isDigit ∧ b.isDigit then [(10 * dv a + dv b, r)] else []
  | _ => []

/-- `%Y`: exactly four digits. -/
def p_Y : Prs Nat := fun cs =>
  match cs with
  | a :: b :: c :: d :: r =>
    if a.isDigit ∧ b.isDigit ∧ c.isDigit ∧ d.isDigit then
      [(1000 * dv a + 100 * dv b + 10 * dv c + dv d, r)]
    else []
  | _ => []

/-- `%H`: `2[0-3]|[0-1]\d|\d`. -/
def p_H : Prs Nat := fun cs =>
  (match cs with
   | '2' :: c :: r => if '0' ≤ c ∧ c ≤ '3' then [(20 + dv c, r)] else []
   | _ => []) ++
  (match cs with
   | c :: c' :: r => if ('0' ≤ c ∧ c ≤ '1') ∧ c'.isDigit then [(10 * dv c + dv c', r)] else []
   | _ => []) ++
  (match cs with
   | c :: r => if c.isDigit then [(dv c, r)] else []
   | _ => [])

/-- `%M`: `[0-5]\d|\d`. -/
def p_M : Prs Nat := fun cs =>
  (match cs with
   | c :: c' :: r => if ('0' ≤ c ∧ c ≤ '5') ∧ c'.isDigit then [(10 * dv c + dv c', r)] else []
   | _ => []) ++
  (match cs with
   | c :: r => if c.isDigit then [(dv c, r)] else []
   | _ => [])

/-- `%S`: `6[0-1]|[0-5]\d|\d`. -/
def p_S : Prs Nat := fun cs =>
  (match cs with
   | '6' :: c :: r => if '0' ≤ c ∧ c ≤ '1' then [(60 + dv c, r)] else []
   | _ => []) ++
  (match cs with
   | c :: c' :: r => if ('0' ≤ c ∧ c ≤ '5') ∧ c'.isDigit then [(10 * dv c + dv c', r)] else []
   | _ => []) ++
  (match cs with
   | c :: r => if c.isDigit then [(dv c, r)] else []
   | _ => [])

/-- `%p`: `AM|PM`, case-insensitive; `true` means PM. -/
def p_p : Prs Bool := fun cs =>
  match cs with
  | a :: b :: r =>
    if lowerC a = 'a' ∧ lowerC b = 'm' then [(false, r)]
    else if lowerC a = 'p' ∧ lowerC b = 'm' then [(true, r)]
    else []
  | _ => []

/-- Month abbreviations for `%b` (three letters, case-insensitive). -/
def monthAbbrs : List (String × Nat) :=
  [("jan", 1), ("feb", 2), ("mar", 3), ("apr", 4), ("may", 5), ("jun", 6),
   ("jul", 7), ("aug", 8), ("sep", 9), ("oct", 10), ("nov", 11), ("dec", 12)]

/-- `%b`: a three-letter month abbreviation, case-insensitive. -/
def p_b : Prs Nat := fun cs =>
  monthAbbrs.flatMap (fun mn =>
    if (cs.take 3).map lowerC = mn.1.data then [(mn.2, cs.drop 3)] else [])

/-- Full month names for `%B`, in CPython's length-descending alternation
order. -/
def monthNames : List (String × Nat) :=
  [("september", 9), ("february", 2), ("november", 11), ("december", 12),
   ("january", 1), ("october", 10), ("august", 8), ("march", 3), ("april", 4),
   ("june", 6), ("july", 7), ("may", 5)]

/-- `%B`: a full month name, case-insensitive. -/
def p_B : Prs Nat := fun cs =>
  monthNames.flatMap (fun mn =>
    if (cs.take mn.1.length).map lowerC = mn.1.data then [(mn.2, cs.drop mn.1.length)] else [])

/-- Whitespace inside a strptime format string is compiled to `\s+`. -/
def pwsF : Prs Unit := fun cs =>
  let k := (cs.takeWhile isWS).length
  (List.range k).map (fun i => ((), cs.drop (k - i)))

/-- A literal character inside a strptime format string. -/
def pchF (c : Char) : Prs Unit := fun cs =>
  match cs with
  | c' :: r => if c' = c then [((), r)] else []
  | [] => []

/-- `%y` century rule: `year += 2000 if year <= 68 else 1900`. -/
def y2full (y : Nat) : Nat := if y ≤ 68 then 2000 + y else 1900 + y

/-- `%I`/`%p` to 24-hour conversion. -/
def conv12 (i : Nat) (pm : Bool) : Nat :=
  if pm then (if i = 12 then 12 else i + 12) else (if i = 12 then 0 else i)

/-- Days in a month, as validated by the `datetime` constructor. -/
def daysInMonth (y m : Nat) : Nat :=
  if m = 2 then
    (if y % 4 = 0 ∧ (y % 100 ≠ 0 ∨ y % 400 = 0) then 29 else 28)
  else if m = 4 ∨ m = 6 ∨ m = 9 ∨ m = 11 then 30
  else 31

/-- Validation performed by the `datetime(...)` constructor after the format
regex matched: an out-of-range day or second raises `ValueError`, which the
source treats as a failed format attempt. -/
def validDT (d : DateTime) : Option DateTime :=
  if 1 ≤ d.year ∧ d.day ≤ daysInMonth d.year d.month ∧ d.second ≤ 59 then some d else none

/-- Format `"%m/%d/%y %I:%M %p"`. -/
def fmt1 : Prs DateTime := do
  let m ← p_m; pchF '/'; let d ← p_d; pchF '/'; let y ← p_y; pwsF
  let i ← p_m; pchF ':'; let mi ← p_M; pwsF; let pm ← p_p
  pure ⟨y2full y, m, d, conv12 i pm, mi, 0⟩

/-- Format `"%m/%d/%Y %I:%M %p"`. -/
def fmt2 : Prs DateTime := do
  let m ← p_m; pchF '/'; let d ← p_d; pchF '/'; let y ← p_Y; pwsF
  let i ← p_m; pchF ':'; let mi ← p_M; pwsF; let pm ← p_p
  pure ⟨y, m, d, conv12 i pm, mi, 0⟩

/-- Format `"%Y-%m-%d %H:%M:%S"`. -/
def fmt3 : Prs DateTime := do
  let y ← p_Y; pchF '-'; let m ← p_m; pchF '-'; let d ← p_d; pwsF
  let h ← p_H; pchF ':'; let mi ← p_M; pchF ':'; let s ← p_S
  pure ⟨y, m, d, h, mi, s⟩

/-- Format `"%Y-%m-%d %H:%M"`. -/
def fmt4 : Prs DateTime := do
  let y ← p_Y; pchF '-'; let m ← p_m; pchF '-'; let d ← p_d; pwsF
  let h ← p_H; pchF ':'; let mi ← p_M
  pure ⟨y, m, d, h, mi, 0⟩

/-- Format `"%d %b %Y"`. -/
def fmt5 : Prs DateTime := do
  let d ← p_d; pwsF; let b ← p_b; pwsF; let y ← p_Y
  pure ⟨y, b, d, 0, 0, 0⟩

/-- Format `"%d %B %Y"`. -/
def fmt6 : Prs DateTime := do
  let d ← p_d; pwsF; let b ← p_B; pwsF; let y ← p_Y
  pure ⟨y, b, d, 0, 0, 0⟩

/-- `datetime.strptime(cs, fmt)`: commit to the regex engine's first match,
then require the whole string consumed and the `datetime` construction to
validate. -/
def runFmt (f : Prs DateTime) (cs : List Char) : Option DateTime :=
  match f cs with
  | (v, rest) :: _ => if rest = [] then validDT v else none
  | [] => none

/-- The source's ordered format attempts for a matched substring: the first
format that parses wins. -/
def tryFormats (cs : List Char) : Option DateTime :=
  runFmt fmt1 cs <|> runFmt fmt2 cs <|> runFmt fmt3 cs <|>
  runFmt fmt4 cs <|> runFmt fmt5 cs <|> runFmt fmt6 cs

/-- `MarkdownProcessor.parse_date`: try each grammar in order; on a regex
match, try all six formats on the matched substring; when every format fails
(all `ValueError`s are swallowed) fall through to the next grammar. -/
def parse_date (cs : List Char) : Option DateTime :=
  ((reSearchTxt pattern1 cs).bind tryFormats) <|>
  ((reSearchTxt pattern2 cs).bind tryFormats) <|>
  ((reSearchTxt pattern3 cs).bind tryFormats)

/-! ## Entry Extractor: `MarkdownProcessor.extract_conversation_entries`

The bullet pattern is `[-*]\s*(.*?)(?=\n[-*]|\n\n|\n$|$)` with `re.DOTALL`,
scanned with `finditer`.  At a `-` or `*` (anywhere, not only at line starts)
the greedy `\s*` consumes the following whitespace run, and the lazy group
extends to the first position where the lookahead holds; scanning resumes at
the end of the match. -/

/-- The lookahead `(?=\n[-*]|\n\n|\n$|$)` holds at this suffix. -/
def lookaheadOK : List Char → Bool
  | [] => true
  | '\n' :: rest =>
    match rest with
    | [] => true
    | d :: _ => d = '-' || d = '*' || d = '\n'
  | _ => false

/-- Lazy `(.*?)` up to the first position where the lookahead holds: returns
the group text and the suffix at which the match ends. -/
def takeUntilLA : List Char → List Char × List Char
  | [] => ([], [])
  | c :: rest =>
    if lookaheadOK (c :: rest) then ([], c :: rest)
    else
      let p := takeUntilLA rest
      (c :: p.1, p.2)

/-- `finditer` scan for the bullet pattern with step-count fuel (each step
consumes at least the bullet character, so `fuel = length` suffices);
returns the group-1 texts in match order. -/
def findEntriesF : Nat → List Char → List (List Char)
  | 0, _ => []
  | _ + 1, [] => []
  | fuel + 1, c :: rest =>
    if c = '-' ∨ c = '*' then
      let p := takeUntilLA (rest.dropWhile isWS)
      p.1 :: findEntriesF fuel p.2
    else
      findEntriesF fuel rest

/-- All bullet-pattern group texts of a section body, in match order. -/
def findEntries (cs : List Char) : List (List Char) :=
  findEntriesF cs.length cs

/-- One conversation entry. -/
structure Entry where
  timestamp : Option DateTime
  content : List Char
  deriving DecidableEq, Repr

/-- The per-match body of the source loop: strip the group text, parse a
timestamp out of it, and, when one is found, split on the slash-date pattern
(`re.split(..., 1)`) keeping the trimmed part after the first match; when the
split pattern does not occur (or no timestamp was found) the content is the
full stripped text. -/
def entryOfMatch (g : List Char) : Entry :=
  let t := trim g
  match parse_date t with
  | some ts =>
    match reSearch patternSplit t with
    | some (_, _, after) => ⟨some ts, trim after⟩
    | none => ⟨some ts, t⟩
  | none => ⟨none, t⟩

/-- The line-based fallback: every non-blank line of the stripped body becomes
an entry with no timestamp. -/
def fallbackEntries (body : List Char) : List Entry :=
  (splitLines (trim body)).filterMap (fun l =>
    match trim l with
    | [] => none
    | t => some ⟨none, t⟩)

/-- `MarkdownProcessor.extract_conversation_entries`. -/
def extract_conversation_entries (body : List Char) : List Entry :=
  match (findEntries body).map entryOfMatch with
  | [] =>
    match trim body with
    | [] => []
    | _ => fallbackEntries body
  | es => es

/-! ## Chat/Retrieval Responder: `MemoryManager.chat`

The backends are abstracted as oracles: the memory search outcome for the
query, and the Ollama HTTP outcome for each prompt. -/

/-- Outcome of the `memory.search` call inside `search_memories`. -/
inductive SearchOutcome where
  | exn (e : String)
  | ok (results : List String)

/-- Outcome of the HTTP call inside `_call_ollama_api`: a raised
`RequestException`, a JSON body with a `response` field, or one without. -/
inductive LlmHttp where
  | exn (e : String)
  | okWith (text : String)
  | okMissing

/-- `MemoryManager.search_memories`: exceptions are caught and become
`None`. -/
def search_memories : SearchOutcome → Option (List String)
  | .exn _ => none
  | .ok results => some results

/-- `'\n'.join(f"• {fact}" for fact in facts)`. -/
def bulletJoin : List String → String
  | [] => ""
  | [f] => "• " ++ f
  | f :: f' :: fs => "• " ++ f ++ "\n" ++ bulletJoin (f' :: fs)

/-- The context block of `chat`: a no-information sentinel when the search
produced nothing (or failed), otherwise the bulleted fact list. -/
def memContext (user : String) : Option (List String) → String
  | none => "No specific information available about " ++ user ++ "."
  | some [] => "No specific information available about " ++ user ++ "."
  | some (f :: fs) => "Facts about " ++ user ++ ":\n" ++ bulletJoin (f :: fs)

/-- The grounding prompt rendered by `chat` (the source's f-string, with
`{user_id}`, `{context}` and `{query}` interpolated). -/
def chatPrompt (user context query : String) : String :=
  "You are a helpful personal assistant for " ++ user ++
  ". You have access to the following facts about " ++ user ++ ":\n\n" ++
  context ++
  "\n\nIMPORTANT INSTRUCTIONS:\n- When the user says \"I\", \"me\", \"my\", or \"mine\", they are referring to " ++
  user ++
  "\n- Use the facts above to answer questions confidently when the information is available\n- Connect related concepts (e.g., \"favorite food\" relates to \"what I like to eat\")\n- Give natural, conversational responses as if you know " ++
  user ++
  " personally\n- Only say you don\x27t know if the facts truly don\x27t contain relevant information\n\nExamples of how to handle pronouns:\n- \"What do I like?\" → \"What does " ++
  user ++
  " like?\"\n- \"What\x27s my favorite?\" → \"What\x27s " ++ user ++
  "\x27s favorite?\"\n- \"Tell me about myself\" → \"Tell me about " ++ user ++
  "\"\n\nUser question: " ++ query ++
  "\n\nProvide a helpful, natural response based on the available facts:"

/-- `result['response'].strip()` on a `String`. -/
def stripS (t : String) : String := String.mk (trim t.data)

/-- `MemoryManager._call_ollama_api`: a request exception propagates
(`raise`), a JSON body with a `response` field yields the stripped text, one
without yields a fixed sentinel. -/
def call_ollama_api : LlmHttp → Except String String
  | .exn e => .error e
  | .okWith t => .ok (stripS t)
  | .okMissing => .ok "Sorry, I couldn\x27t generate a response."

/-- `MemoryManager.chat`: search (failures already degraded to `None`), build
the context and prompt, call the LLM; an exception reaching the top-level
handler is converted to `"Sorry, I encountered an error: " + str(e)`. -/
def chat (s : SearchOutcome) (llm : String → LlmHttp) (query user : String) : String :=
  let context := memContext user (search_memories s)
  let prompt := chatPrompt user context query
  match call_ollama_api (llm prompt) with
  | .ok v => v
  | .error e => "Sorry, I encountered an error: " ++ e

/-! # Theorems -/

/-! ## Fact Store Adapter lemmas -/

theorem add_fact_go_calls_le (b : Nat → AddOutcome) :
    ∀ rem a, (add_fact_go b a rem).2 ≤ rem := by
  intro rem
  induction rem with
  | zero => intro a; simp [add_fact_go]
  | succ n ih =>
    intro a
    simp only [add_fact_go]
    cases hb : b a with
    | ok r => simp [add_fact_step]
    | exn =>
      have := ih (a + 1)
      simp only [add_fact_step]
      omega

theorem add_fact_go_success (b : Nat → AddOutcome) :
    ∀ k a rem r, k < rem → (∀ j, j < k → b (a + j) = .exn) → b (a + k) = .ok r →
      add_fact_go b a rem = (some r, k + 1) := by
  intro k
  induction k with
  | zero =>
    intro a rem r hle hfail hok
    obtain ⟨rem', rfl⟩ : ∃ rem', rem = rem' + 1 := ⟨rem - 1, by omega⟩
    rw [Nat.add_zero] at hok
    simp [add_fact_go, hok, add_fact_step]
  | succ k ih =>
    intro a rem r hle hfail hok
    obtain ⟨rem', rfl⟩ : ∃ rem', rem = rem' + 1 := ⟨rem - 1, by omega⟩
    have hb0 : b a = .exn := by simpa using hfail 0 (by omega)
    have ihh := ih (a + 1) rem' r (by omega)
      (fun j hj => by
        have h := hfail (j + 1) (by omega)
        have e : a + (j + 1) = a + 1 + j := by omega
        rwa [e] at h)
      (by
        have e : a + 1 + k = a + (k + 1) := by omega
        rw [e]; exact hok)
    simp [add_fact_go, hb0, add_fact_step, ihh]

theorem add_fact_go_allfail (b : Nat → AddOutcome) :
    ∀ rem a, (∀ j, j < rem → b (a + j) = .exn) → (add_fact_go b a rem).1 = none := by
  intro rem
  induction rem with
  | zero => intro a _; simp [add_fact_go]
  | succ n ih =>
    intro a h
    have hb0 : b a = .exn := by simpa using h 0 (by omega)
    have := ih (a + 1) (fun j hj => by
      have h' := h (j + 1) (by omega)
      have e : a + (j + 1) = a + 1 + j := by omega
      rwa [e] at h')
    simp [add_fact_go, hb0, add_fact_step, this]

theorem process_facts_added_aux (add : String → Option AddResult) :
    ∀ (facts : List String) (a : Nat),
      facts.foldl (fun acc f => acc + addedIncr (add f)) a =
      a + (facts.filter (fun f =>
        match add f with
        | some r' => !r'.results.isEmpty
        | none => false)).length := by
  intro facts
  induction facts with
  | nil => intro a; simp
  | cons f fs ih =>
    intro a
    have hstep : addedIncr (add f) =
        if (match add f with
            | some r' => !r'.results.isEmpty
            | none => false) = true then 1 else 0 := by
      cases h : add f with
      | none => simp [addedIncr]
      | some r' =>
        by_cases he : r'.results.isEmpty
        · simp [addedIncr, he]
        · simp [addedIncr, he]
    simp only [List.foldl_cons, List.filter_cons, ih]
    by_cases hp : (match add f with
        | some r' => !r'.results.isEmpty
        | none => false) = true
    · simp only [hp, if_true] at hstep
      simp [hp, hstep]
      omega
    · simp only [hp, if_false] at hstep
      simp [hp, hstep]

/-- C1: for every fact, user id, metadata and `max_retries ≥ 1` (the fact
text, user id and metadata do not enter the loop's control flow, so the
backend is abstracted as a per-attempt outcome oracle), `add_fact` invokes the
backend add call at most `max_retries` times; if the backend first succeeds on
attempt `k+1 ≤ max_retries` (0-based index `k`, earlier attempts raising),
exactly `k+1` backend calls are made and the result is returned; after all
`max_retries` attempts raise, `add_fact` returns `none` (it is a total
function, so it cannot itself raise). -/
theorem C1_add_fact_retry_bound (b : Nat → AddOutcome) (m : Nat) (_hm : 1 ≤ m) :
    add_fact_calls b m ≤ m ∧
    (∀ k r, k < m → (∀ j, j < k → b j = .exn) → b k = .ok r →
      add_fact b m = some r ∧ add_fact_calls b m = k + 1) ∧
    ((∀ j, j < m → b j = .exn) → add_fact b m = none) := by
  refine ⟨add_fact_go_calls_le b m 0, ?_, ?_⟩
  · intro k r hk hfail hok
    have h := add_fact_go_success b k 0 m r hk
      (fun j hj => by simpa using hfail j hj) (by simpa using hok)
    exact ⟨by unfold add_fact; rw [h], by unfold add_fact_calls; rw [h]⟩
  · intro h
    exact add_fact_go_allfail b m 0 (fun j hj => by simpa using h j hj)

/-- Witness for C1 at a concrete backend that raises on attempt 0 and
succeeds on attempt 1, with `max_retries = 3`. -/
theorem C1_add_fact_retry_bound_witness :
    add_fact (fun n => if n = 0 then .exn else .ok ⟨["m"]⟩) 3 = some ⟨["m"]⟩ ∧
    add_fact_calls (fun n => if n = 0 then .exn else .ok ⟨["m"]⟩) 3 = 2 :=
  (C1_add_fact_retry_bound _ 3 (by decide)).2.1 1 ⟨["m"]⟩ (by decide)
    (fun j hj => by
      have hj0 : j = 0 := by omega
      subst hj0; rfl)
    (by rfl)

/-- C2: a backend success whose `results` list is empty is returned
immediately by `add_fact` — exactly `k+1` calls, no further retry — and
`process_file`'s `added_facts` counter is incremented only for a result with a
non-empty created-record list, so such a zero-record success contributes
nothing to the counter. -/
theorem C2_zero_record_not_retried_not_counted (b : Nat → AddOutcome) (m k : Nat)
    (r : AddResult) (hk : k < m) (hfail : ∀ j, j < k → b j = .exn)
    (hok : b k = .ok r) (hempty : r.results = []) :
    add_fact b m = some r ∧ add_fact_calls b m = k + 1 ∧
    (∀ add facts f, add f = add_fact b m →
      process_facts_added add (f :: facts) = process_facts_added add facts) ∧
    (∀ add facts, process_facts_added add facts =
      (facts.filter (fun f =>
        match add f with
        | some r' => !r'.results.isEmpty
        | none => false)).length) := by
  have h := add_fact_go_success b k 0 m r hk
    (fun j hj => by simpa using hfail j hj) (by simpa using hok)
  refine ⟨by unfold add_fact; rw [h], by unfold add_fact_calls; rw [h], ?_, ?_⟩
  · intro add facts f hf
    have hres : add f = some r := by rw [hf]; unfold add_fact; rw [h]
    have hincr : addedIncr (add f) = 0 := by
      rw [hres]; simp [addedIncr, hempty]
    show facts.foldl _ (0 + addedIncr (add f)) = facts.foldl _ 0
    rw [hincr]
  · intro add facts
    have := process_facts_added_aux add facts 0
    simpa [process_facts_added] using this

/-! ## Chat/Retrieval Responder theorems -/

/-- C8 counterexample: `chat` does not convert every retrieve-then-generate
failure into a fixed apologetic string.  A `memory.search` exception is
swallowed inside `search_memories`, so `chat` proceeds with the no-information
context and returns the LLM's normal (trimmed) answer; and an LLM exception
produces an apology that embeds the error text, so two different failures give
two different strings. -/
theorem C8_counterexample :
    chat (.exn "db down") (fun _ => .okWith " Paris ") "Where do I live?" "alice" = "Paris" ∧
    chat (.ok ["User lives in Seattle"]) (fun _ => .exn "boom") "Where do I live?" "alice" =
      "Sorry, I encountered an error: boom" ∧
    chat (.ok ["User lives in Seattle"]) (fun _ => .exn "crash") "Where do I live?" "alice" =
      "Sorry, I encountered an error: crash" ∧
    ("Paris" : String) ≠ "Sorry, I encountered an error: boom" ∧
    ("Sorry, I encountered an error: boom" : String) ≠ "Sorry, I encountered an error: crash" :=
  ⟨by decide, rfl, rfl, by decide, by decide⟩

/-- C8 amended: `chat` never raises (it is a total function into `String`); a
search failure is absorbed inside `search_memories` and `chat` behaves exactly
as with zero search results; only an exception from the LLM call reaches the
top-level handler, which returns the apologetic prefix
`"Sorry, I encountered an error: "` followed by the error text; a successful
LLM call returns its stripped response. -/
theorem C8_chat_error_handling (s : SearchOutcome) (llm : String → LlmHttp)
    (query user : String) :
    (∀ e, chat (.exn e) llm query user = chat (.ok []) llm query user) ∧
    (∀ e, llm (chatPrompt user (memContext user (search_memories s)) query) = .exn e →
      chat s llm query user = "Sorry, I encountered an error: " ++ e) ∧
    (∀ t, llm (chatPrompt user (memContext user (search_memories s)) query) = .okWith t →
      chat s llm query user = stripS t) := by
  refine ⟨fun e => rfl, fun e h => ?_, fun t h => ?_⟩ <;>
    simp [chat, call_ollama_api, h]

/-- Witness for C8 at a concrete erroring LLM backend. -/
theorem C8_chat_error_handling_witness :
    chat (.ok ["User lives in Seattle"]) (fun _ => .exn "timeout") "Where do I live?" "alice" =
      "Sorry, I encountered an error: timeout" :=
  (C8_chat_error_handling (.ok ["User lives in Seattle"]) (fun _ => .exn "timeout")
    "Where do I live?" "alice").2.1 "timeout" rfl

/-! ## Date Parser theorems -/

theorem opt_orElse_eq_none {α : Type} (a b : Option α) :
    (a <|> b) = none ↔ a = none ∧ b = none := by
  cases a <;> simp

theorem opt_bind_eq_none {α β : Type} (o : Option α) (f : α → Option β) :
    o.bind f = none ↔ ∀ a, o = some a → f a = none := by
  cases o <;> simp

/-- C7 counterexample: on `"1/1/25 9:10 2025-03-29 09:10"` the first grammar
matches (`"1/1/25 9:10 "`, trailing whitespace included by the greedy `\s*`),
its matched substring fails all six format attempts, and yet `parse_date` does
not return `none`: the loop falls through to the second grammar, which
succeeds. -/
theorem C7_counterexample :
    reSearchTxt pattern1 "1/1/25 9:10 2025-03-29 09:10".data = some "1/1/25 9:10 ".data ∧
    tryFormats "1/1/25 9:10 ".data = none ∧
    parse_date "1/1/25 9:10 2025-03-29 09:10".data = some ⟨2025, 3, 29, 9, 10, 0⟩ :=
  ⟨by decide, by decide, by decide⟩

/-- C7 amended: `parse_date` returns `none` when no grammar's regex matches
anywhere in the input; when a matched substring fails all six format attempts
the loop falls through to the next grammar, so `parse_date` returns `none`
exactly when every grammar either fails to match or has its matched substring
fail all format attempts; being a total function, it never raises. -/
theorem C7_parse_date_fallthrough (cs : List Char) :
    ((reSearchTxt pattern1 cs = none ∧ reSearchTxt pattern2 cs = none ∧
      reSearchTxt pattern3 cs = none) → parse_date cs = none) ∧
    (parse_date cs = none ↔
      ((∀ m, reSearchTxt pattern1 cs = some m → tryFormats m = none) ∧
       (∀ m, reSearchTxt pattern2 cs = some m → tryFormats m = none) ∧
       (∀ m, reSearchTxt pattern3 cs = some m → tryFormats m = none))) := by
  constructor
  · rintro ⟨h1, h2, h3⟩
    unfold parse_date
    rw [h1, h2, h3]
    rfl
  · unfold parse_date
    simp only [opt_orElse_eq_none, opt_bind_eq_none]

/-- Witness for C7 at an input no grammar matches. -/
theorem C7_parse_date_fallthrough_witness : parse_date "no timestamps in sight".data = none :=
  (C7_parse_date_fallthrough _).1 ⟨by decide, by decide, by decide⟩

/-! ## Entry Extractor theorems -/

/-- C10: the bullet pattern `[-*]\s*(.*?)(...)` is matched by `finditer` at any
position, not only at line starts: on `"well-known fact here"`, whose only `-`
is inside a hyphenated word mid-line, the bullet scan produces the entry
`"known fact here"` (the text after that `-`), and the line-based fallback
(which would have produced the whole trimmed line) is not used. -/
theorem C10_bullet_matches_anywhere :
    extract_conversation_entries "well-known fact here".data =
      [⟨none, "known fact here".data⟩] ∧
    fallbackEntries "well-known fact here".data =
      [⟨none, "well-known fact here".data⟩] ∧
    extract_conversation_entries "well-known fact here".data ≠
      fallbackEntries "well-known fact here".data :=
  ⟨by decide, by decide, by decide⟩

/-- C5 counterexample: for the bullet `"- 2025-03-29 09:10 hello there"` the
Date Parser finds a timestamp (via the ISO grammar), but the matched timestamp
substring is not stripped from the content: the entry's content is the full
bullet text, not `"hello there"` — the `re.split` stripping pattern is the
slash-date grammar only. -/
theorem C5_counterexample :
    extract_conversation_entries "- 2025-03-29 09:10 hello there".data =
      [⟨some ⟨2025, 3, 29, 9, 10, 0⟩, "2025-03-29 09:10 hello there".data⟩] ∧
    "2025-03-29 09:10 hello there".data ≠ "hello there".data :=
  ⟨by decide, by decide⟩

/-- C5 amended: for every bullet text in which the Date Parser finds a
timestamp, the content is produced by splitting on the slash-date pattern
(grammar 1 plus `[:\s]*`) only: if that pattern occurs, the content is the
trimmed text after its first occurrence (text before it is dropped as well);
if it does not occur — in particular whenever the timestamp was found by the
ISO or day-month-name grammar and no slash-date is present — the content is
the full bullet text, timestamp not stripped. -/
theorem C5_strip_uses_slash_pattern_only (g : List Char) (ts : DateTime)
    (h : parse_date (trim g) = some ts) :
    (reSearch patternSplit (trim g) = none → entryOfMatch g = ⟨some ts, trim g⟩) ∧
    (∀ pre m after, reSearch patternSplit (trim g) = some (pre, m, after) →
      entryOfMatch g = ⟨some ts, trim after⟩) := by
  constructor
  · intro hs
    simp [entryOfMatch, h, hs]
  · intro pre m after hs
    simp [entryOfMatch, h, hs]

/-- Witness for C5 at an ISO-grammar bullet text (no slash-date present). -/
theorem C5_strip_uses_slash_pattern_only_witness :
    entryOfMatch "2025-03-29 09:10 pizza time".data =
      ⟨some ⟨2025, 3, 29, 9, 10, 0⟩, trim "2025-03-29 09:10 pizza time".data⟩ :=
  (C5_strip_uses_slash_pattern_only "2025-03-29 09:10 pizza time".data
    ⟨2025, 3, 29, 9, 10, 0⟩ (by decide)).1 (by decide)

/-- Witness for C2 at a concrete backend succeeding with zero records on
attempt 0, with `max_retries = 3`. -/
theorem C2_zero_record_not_retried_not_counted_witness :
    add_fact (fun _ => .ok ⟨[]⟩) 3 = some ⟨[]⟩ ∧
    add_fact_calls (fun _ => .ok ⟨[]⟩) 3 = 1 ∧
    (∀ add facts f, add f = add_fact (fun _ => .ok ⟨[]⟩) 3 →
      process_facts_added add (f :: facts) = process_facts_added add facts) ∧
    (∀ add facts, process_facts_added add facts =
      (facts.filter (fun f =>
        match add f with
        | some r' => !r'.results.isEmpty
        | none => false)).length) :=
  C2_zero_record_not_retried_not_counted (fun _ => .ok ⟨[]⟩) 3 0 ⟨[]⟩ (by decide)
    (fun j hj => absurd hj (by omega)) (by rfl) (by rfl)

/-! ## Line-splitting and stripping lemmas -/

theorem splitLines_ne_nil : ∀ s : List Char, splitLines s ≠ [] := by
  intro s
  cases s with
  | nil => simp [splitLines]
  | cons c r =>
    by_cases hc : c = '\n'
    · simp [splitLines, hc]
    · simp only [splitLines, hc, if_false]
      cases splitLines r <;> simp

theorem splitLinesAux_eq : ∀ (s : List Char) (pre h : List Char) (t : List (List Char)),
    splitLines s = h :: t → splitLinesAux pre s = (pre ++ h) :: t := by
  intro s
  induction s with
  | nil =>
    intro pre h t heq
    simp [splitLines] at heq
    obtain ⟨rfl, rfl⟩ := heq
    simp [splitLinesAux]
  | cons c r ih =>
    intro pre h t heq
    by_cases hc : c = '\n'
    · subst hc
      simp only [splitLines, if_true] at heq
      cases heq
      simp only [splitLinesAux, if_true]
      obtain ⟨h', t', heq'⟩ : ∃ h' t', splitLines r = h' :: t' := by
        cases hr : splitLines r with
        | nil => exact absurd hr (splitLines_ne_nil r)
        | cons a b => exact ⟨a, b, rfl⟩
      rw [ih [] h' t' heq', heq']
      simp
    · simp only [splitLines, hc, if_false] at heq
      obtain ⟨h', t', heq'⟩ : ∃ h' t', splitLines r = h' :: t' := by
        cases hr : splitLines r with
        | nil => exact absurd hr (splitLines_ne_nil r)
        | cons a b => exact ⟨a, b, rfl⟩
      rw [heq'] at heq
      injection heq with heq1 heq2
      subst heq1
      subst heq2
      simp only [splitLinesAux, hc, if_false]
      rw [ih (pre ++ [c]) h' t' heq']
      simp

theorem splitLines_eq_aux (s : List Char) : splitLines s = splitLinesAux [] s := by
  obtain ⟨h, t, heq⟩ : ∃ h t, splitLines s = h :: t := by
    cases hr : splitLines s with
    | nil => exact absurd hr (splitLines_ne_nil s)
    | cons a b => exact ⟨a, b, rfl⟩
  rw [heq, splitLinesAux_eq s [] h t heq]
  simp

theorem no_newline_splitLines : ∀ (s l : List Char), l ∈ splitLines s → '\n' ∉ l := by
  intro s
  induction s with
  | nil => intro l hl; simp [splitLines] at hl; simp [hl]
  | cons c r ih =>
    intro l hl
    by_cases hc : c = '\n'
    · simp only [splitLines, hc, if_true, List.mem_cons] at hl
      rcases hl with rfl | hl
      · simp
      · exact ih l hl
    · simp only [splitLines, hc, if_false] at hl
      obtain ⟨h', t', heq'⟩ : ∃ h' t', splitLines r = h' :: t' := by
        cases hr : splitLines r with
        | nil => exact absurd hr (splitLines_ne_nil r)
        | cons a b => exact ⟨a, b, rfl⟩
      rw [heq'] at hl
      simp only [List.mem_cons] at hl
      rcases hl with rfl | hl
      · intro hmem
        simp only [List.mem_cons] at hmem
        rcases hmem with heqc | hmem
        · exact hc heqc.symm
        · exact ih h' (heq' ▸ List.mem_cons_self h' t') hmem
      · exact ih l (heq' ▸ List.mem_cons_of_mem h' hl)

theorem splitLines_single : ∀ l : List Char, '\n' ∉ l → splitLines l = [l] := by
  intro l
  induction l with
  | nil => intro _; rfl
  | cons c r ih =>
    intro h
    have hc : c ≠ '\n' := fun hh => h (hh ▸ List.mem_cons_self c r)
    have hr : '\n' ∉ r := fun hh => h (List.mem_cons_of_mem c hh)
    simp only [splitLines, hc, if_false, ih hr]

theorem splitLines_append_newline : ∀ (l t : List Char), '\n' ∉ l →
    splitLines (l ++ '\n' :: t) = l :: splitLines t := by
  intro l
  induction l with
  | nil => intro t _; simp [splitLines]
  | cons c r ih =>
    intro t h
    have hc : c ≠ '\n' := fun hh => h (hh ▸ List.mem_cons_self c r)
    have hr : '\n' ∉ r := fun hh => h (List.mem_cons_of_mem c hh)
    simp only [List.cons_append, splitLines, hc, if_false, List.append_eq]
    rw [ih t hr]

theorem splitLines_joinLines : ∀ ls : List (List Char), ls ≠ [] →
    (∀ l ∈ ls, '\n' ∉ l) → splitLines (joinLines ls) = ls := by
  intro ls
  induction ls with
  | nil => intro h _; exact absurd rfl h
  | cons l rest ih =>
    intro _ hnl
    cases rest with
    | nil => exact splitLines_single l (hnl l (List.mem_cons_self l []))
    | cons l' rest' =>
      show splitLines (l ++ '\n' :: joinLines (l' :: rest')) = l :: l' :: rest'
      rw [splitLines_append_newline l _ (hnl l (List.mem_cons_self _ _))]
      rw [ih (by simp) (fun x hx => hnl x (List.mem_cons_of_mem l hx))]

theorem joinLines_splitLines : ∀ s : List Char, joinLines (splitLines s) = s := by
  intro s
  induction s with
  | nil => rfl
  | cons c r ih =>
    by_cases hc : c = '\n'
    · subst hc
      simp only [splitLines, if_true]
      obtain ⟨h', t', heq'⟩ : ∃ h' t', splitLines r = h' :: t' := by
        cases hr : splitLines r with
        | nil => exact absurd hr (splitLines_ne_nil r)
        | cons a b => exact ⟨a, b, rfl⟩
      rw [heq']
      show '\n' :: joinLines (h' :: t') = '\n' :: r
      rw [← heq', ih]
    · simp only [splitLines, hc, if_false]
      obtain ⟨h', t', heq'⟩ : ∃ h' t', splitLines r = h' :: t' := by
        cases hr : splitLines r with
        | nil => exact absurd hr (splitLines_ne_nil r)
        | cons a b => exact ⟨a, b, rfl⟩
      rw [heq']
      cases t' with
      | nil =>
        show c :: h' = c :: r
        have : joinLines (splitLines r) = r := ih
        rw [heq'] at this
        simpa using this
      | cons a b =>
        show (c :: h') ++ '\n' :: joinLines (a :: b) = c :: r
        have : joinLines (splitLines r) = r := ih
        rw [heq'] at this
        show c :: (h' ++ '\n' :: joinLines (a :: b)) = c :: r
        rw [show h' ++ '\n' :: joinLines (a :: b) = joinLines (h' :: a :: b) from rfl, this]

theorem trimRight_nil_iff : ∀ s : List Char, trimRight s = [] ↔ s.all isWS := by
  intro s
  induction s with
  | nil => simp [trimRight]
  | cons c r ih =>
    simp only [trimRight, List.all_cons]
    cases hr : trimRight r with
    | nil =>
      have hall : r.all isWS := (ih.mp hr)
      by_cases hc : isWS c
      · simp [hc, hall]
      · simp [hc, hall]
    | cons a b =>
      have hnall : ¬ r.all isWS = true := fun hh => by
        rw [ih.mpr hh] at hr
        exact absurd hr (by simp)
      simp [hnall]

theorem trimLeft_allWS : ∀ s : List Char, s.all isWS → trimLeft s = [] := by
  intro s
  induction s with
  | nil => intro _; rfl
  | cons c r ih =>
    intro h
    simp only [List.all_cons, Bool.and_eq_true] at h
    simp only [trimLeft, List.dropWhile, h.1]
    exact ih h.2

theorem trim_allWS (s : List Char) (h : s.all isWS) : trim s = [] := by
  unfold trim
  rw [trimLeft_allWS s h]
  rfl

theorem trimLeft_cons_ws (c : Char) (s : List Char) (h : isWS c) :
    trimLeft (c :: s) = trimLeft s := by
  simp [trimLeft, List.dropWhile, h]

theorem trimLeft_append_allWS : ∀ pre x : List Char, pre.all isWS →
    trimLeft (pre ++ x) = trimLeft x := by
  intro pre
  induction pre with
  | nil => intro x _; rfl
  | cons c r ih =>
    intro x h
    simp only [List.all_cons, Bool.and_eq_true] at h
    rw [List.cons_append, trimLeft_cons_ws c _ h.1]
    exact ih x h.2

theorem trim_append_allWS (pre x : List Char) (h : pre.all isWS) :
    trim (pre ++ x) = trim x := by
  unfold trim
  rw [trimLeft_append_allWS pre x h]

theorem trimRight_snoc_ws : ∀ (xs : List Char) (c : Char), isWS c →
    trimRight (xs ++ [c]) = trimRight xs := by
  intro xs
  induction xs with
  | nil =>
    intro c h
    simp [trimRight, h]
  | cons a r ih =>
    intro c h
    show trimRight (a :: (r ++ [c])) = trimRight (a :: r)
    simp only [trimRight]
    rw [ih c h]

theorem trimLeft_snoc (pre : List Char) (c : Char) :
    trimLeft (pre ++ [c]) =
      if trimLeft pre = [] then trimLeft [c] else trimLeft pre ++ [c] := by
  induction pre with
  | nil => rfl
  | cons a r ih =>
    by_cases ha : isWS a
    · rw [List.cons_append, trimLeft_cons_ws a _ ha, trimLeft_cons_ws a r ha, ih]
    · have h1 : trimLeft (a :: (r ++ [c])) = a :: (r ++ [c]) := by
        simp [trimLeft, List.dropWhile, ha]
      have h2 : trimLeft (a :: r) = a :: r := by
        simp [trimLeft, List.dropWhile, ha]
      rw [List.cons_append, h1, h2]
      simp

theorem trim_snoc_ws (pre : List Char) (c : Char) (h : isWS c) :
    trim (pre ++ [c]) = trim pre := by
  unfold trim
  rw [trimLeft_snoc]
  by_cases hp : trimLeft pre = []
  · simp only [hp, if_true]
    rw [trimLeft_cons_ws c [] h]
    rfl
  · simp only [hp, if_false]
    exact trimRight_snoc_ws (trimLeft pre) c h

theorem splitLinesAux_newline (pre x : List Char) :
    splitLinesAux pre ('\n' :: x) = pre :: splitLinesAux [] x := by
  simp [splitLinesAux]

theorem splitLinesAux_cons (pre : List Char) (c : Char) (x : List Char) (hc : c ≠ '\n') :
    splitLinesAux pre (c :: x) = splitLinesAux (pre ++ [c]) x := by
  simp [splitLinesAux, hc]

theorem filterMap_cons_toList {α β : Type} (f : α → Option β) (a : α) (l : List α) :
    (a :: l).filterMap f = (f a).toList ++ l.filterMap f := by
  cases hf : f a <;> simp [List.filterMap_cons, hf]

theorem F_allWS {β : Type} (h : List Char → Option β) (h0 : h [] = none) :
    ∀ (s pre : List Char), s.all isWS →
      (splitLinesAux pre s).filterMap (fun l => h (trim l)) = (h (trim pre)).toList := by
  intro s
  induction s with
  | nil =>
    intro pre _
    show List.filterMap _ [pre] = _
    rw [filterMap_cons_toList]
    simp
  | cons c r ih =>
    intro pre hall
    simp only [List.all_cons, Bool.and_eq_true] at hall
    by_cases hc : c = '\n'
    · subst hc
      rw [splitLinesAux_newline, filterMap_cons_toList, ih [] hall.2]
      rw [show trim ([] : List Char) = [] from rfl, h0]
      simp
    · rw [splitLinesAux_cons pre c r hc, ih (pre ++ [c]) hall.2, trim_snoc_ws pre c hall.1]

theorem F_prefix {β : Type} (h : List Char → Option β) :
    ∀ (s q pre : List Char), pre.all isWS →
      (splitLinesAux (pre ++ q) s).filterMap (fun l => h (trim l)) =
      (splitLinesAux q s).filterMap (fun l => h (trim l)) := by
  intro s
  induction s with
  | nil =>
    intro q pre hpre
    show List.filterMap _ [pre ++ q] = List.filterMap _ [q]
    rw [filterMap_cons_toList, filterMap_cons_toList, trim_append_allWS pre q hpre]
  | cons c r ih =>
    intro q pre hpre
    by_cases hc : c = '\n'
    · subst hc
      rw [splitLinesAux_newline, splitLinesAux_newline, filterMap_cons_toList,
        filterMap_cons_toList, trim_append_allWS pre q hpre]
    · rw [splitLinesAux_cons _ c r hc, splitLinesAux_cons q c r hc, List.append_assoc]
      exact ih (q ++ [c]) pre hpre

theorem F_trimLeft {β : Type} (h : List Char → Option β) (h0 : h [] = none) :
    ∀ (s pre : List Char), pre.all isWS →
      (splitLinesAux pre s).filterMap (fun l => h (trim l)) =
      (splitLinesAux [] (trimLeft s)).filterMap (fun l => h (trim l)) := by
  intro s
  induction s with
  | nil =>
    intro pre hpre
    show List.filterMap _ [pre] = List.filterMap _ [[]]
    rw [filterMap_cons_toList, filterMap_cons_toList, trim_allWS pre hpre]
    rfl
  | cons c r ih =>
    intro pre hpre
    by_cases hw : isWS c
    · by_cases hc : c = '\n'
      · subst hc
        rw [trimLeft_cons_ws '\n' r hw, splitLinesAux_newline, filterMap_cons_toList,
          trim_allWS pre hpre, h0]
        rw [show (none : Option β).toList = [] from rfl, List.nil_append]
        exact ih [] rfl
      · rw [trimLeft_cons_ws c r hw, splitLinesAux_cons pre c r hc]
        exact ih (pre ++ [c]) (by simp [List.all_append, hpre, hw])
    · have htl : trimLeft (c :: r) = c :: r := by
        simp [trimLeft, List.dropWhile, hw]
      rw [htl]
      have hp := F_prefix h (c :: r) [] pre hpre
      rwa [List.append_nil] at hp

theorem F_trimRight {β : Type} (h : List Char → Option β) (h0 : h [] = none) :
    ∀ (s pre : List Char),
      (splitLinesAux pre (trimRight s)).filterMap (fun l => h (trim l)) =
      (splitLinesAux pre s).filterMap (fun l => h (trim l)) := by
  intro s
  induction s with
  | nil => intro pre; rfl
  | cons c r ih =>
    intro pre
    cases htr : trimRight r with
    | nil =>
      have hall : r.all isWS := (trimRight_nil_iff r).mp htr
      by_cases hw : isWS c
      · have htc : trimRight (c :: r) = [] := by
          simp only [trimRight, htr]
          simp [hw]
        rw [htc]
        rw [F_allWS h h0 (c :: r) pre (by simp [List.all_cons, hw, hall])]
        show List.filterMap _ [pre] = _
        rw [filterMap_cons_toList]
        simp
      · have hcne : c ≠ '\n' := fun hh => hw (by rw [hh]; rfl)
        have htc : trimRight (c :: r) = [c] := by
          simp only [trimRight, htr]
          simp [hw]
        rw [htc]
        rw [splitLinesAux_cons pre c [] hcne, splitLinesAux_cons pre c r hcne]
        rw [F_allWS h h0 r (pre ++ [c]) hall]
        show List.filterMap _ [pre ++ [c]] = _
        rw [filterMap_cons_toList]
        simp
    | cons a b =>
      have htc : trimRight (c :: r) = c :: a :: b := by
        simp only [trimRight, htr]
      rw [htc]
      by_cases hc : c = '\n'
      · subst hc
        rw [splitLinesAux_newline, splitLinesAux_newline, filterMap_cons_toList,
          filterMap_cons_toList]
        have h2 := ih []
        rw [htr] at h2
        rw [h2]
      · rw [splitLinesAux_cons pre c (a :: b) hc, splitLinesAux_cons pre c r hc]
        have h2 := ih (pre ++ [c])
        rw [htr] at h2
        exact h2

theorem F_trim {β : Type} (h : List Char → Option β) (h0 : h [] = none) (s : List Char) :
    (splitLines (trim s)).filterMap (fun l => h (trim l)) =
    (splitLines s).filterMap (fun l => h (trim l)) := by
  have e : trim s = trimRight (trimLeft s) := rfl
  rw [splitLines_eq_aux, splitLines_eq_aux, e, F_trimRight h h0 (trimLeft s) []]
  exact (F_trimLeft h h0 s [] rfl).symm

theorem findEntriesF_no_bullet : ∀ (fuel : Nat) (cs : List Char),
    (∀ c ∈ cs, c ≠ '-' ∧ c ≠ '*') → findEntriesF fuel cs = [] := by
  intro fuel
  induction fuel with
  | zero => intro cs _; rfl
  | succ n ih =>
    intro cs hcs
    cases cs with
    | nil => rfl
    | cons c rest =>
      have hc := hcs c (List.mem_cons_self c rest)
      have hcond : ¬(c = '-' ∨ c = '*') := by
        rintro (rfl | rfl)
        exacts [hc.1 rfl, hc.2 rfl]
      simp only [findEntriesF, hcond, if_false]
      exact ih rest (fun x hx => hcs x (List.mem_cons_of_mem c hx))

/-- C4: for every non-blank section body containing no bullet marker (`-` or
`*`), `extract_conversation_entries` returns exactly one Entry per non-blank
line of the body, in line order, each with no timestamp and content equal to
the line stripped. -/
theorem C4_fallback_one_entry_per_line (body : List Char)
    (hnb : trim body ≠ [])
    (hnd : ∀ c ∈ body, c ≠ '-' ∧ c ≠ '*') :
    extract_conversation_entries body =
      (splitLines body).filterMap (fun l =>
        match trim l with
        | [] => none
        | t => some ⟨none, t⟩) := by
  have hfe : findEntries body = [] := findEntriesF_no_bullet body.length body hnd
  unfold extract_conversation_entries
  rw [hfe]
  obtain ⟨c, cs, hcs⟩ : ∃ c cs, trim body = c :: cs := by
    cases htb : trim body with
    | nil => exact absurd htb hnb
    | cons a b => exact ⟨a, b, rfl⟩
  rw [List.map_nil, hcs]
  show fallbackEntries body = _
  unfold fallbackEntries
  exact F_trim (fun t =>
    match t with
    | [] => none
    | t' => some (⟨none, t'⟩ : Entry)) rfl body

/-- Witness for C4 at a concrete bullet-free body. -/
theorem C4_fallback_one_entry_per_line_witness :
    trim "alpha\n\n beta ".data ≠ [] ∧
    extract_conversation_entries "alpha\n\n beta ".data =
      (splitLines "alpha\n\n beta ".data).filterMap (fun l =>
        match trim l with
        | [] => none
        | t => some ⟨none, t⟩) :=
  ⟨by decide, C4_fallback_one_entry_per_line _ (by decide) (by decide)⟩

/-! ## Section Splitter theorems -/

theorem sectionsLoop_none_no_heading : ∀ (ls acc : List (List Char)),
    (∀ l ∈ ls, headerMatch l = none) → sectionsLoop none acc ls = [] := by
  intro ls
  induction ls with
  | nil => intro acc _; rfl
  | cons l rest ih =>
    intro acc h
    have hl := h l (List.mem_cons_self l rest)
    simp only [sectionsLoop, hl]
    exact ih acc (fun x hx => h x (List.mem_cons_of_mem l hx))

/-- C3 counterexample: on the non-blank headingless document `"hi\n"` the
synthetic section's body is the stripped document `"hi"`, not the whole
document. -/
theorem C3_counterexample :
    extract_sections "hi\n".data = [⟨0, "General Facts from File".data, "hi".data⟩] ∧
    "hi".data ≠ "hi\n".data :=
  ⟨by decide, by decide⟩

/-- C3 amended: for every non-blank markdown string with zero heading lines,
`extract_sections` returns exactly one Section, with level 0, the fixed
heading placeholder `"General Facts from File"`, and the whole document
trimmed of leading and trailing whitespace as its body. -/
theorem C3_headerless_single_section (md : List Char)
    (hnb : trim md ≠ [])
    (hnh : ∀ l ∈ splitLines md, headerMatch l = none) :
    extract_sections md = [⟨0, "General Facts from File".data, trim md⟩] := by
  have hloop := sectionsLoop_none_no_heading (splitLines md) [] hnh
  unfold extract_sections
  rw [hloop]
  obtain ⟨c, cs, hcs⟩ : ∃ c cs, trim md = c :: cs := by
    cases htb : trim md with
    | nil => exact absurd htb hnb
    | cons a b => exact ⟨a, b, rfl⟩
  rw [hcs]

/-- Witness for C3 at a concrete headingless document. -/
theorem C3_headerless_single_section_witness :
    extract_sections "just some notes\nsecond line".data =
      [⟨0, "General Facts from File".data, trim "just some notes\nsecond line".data⟩] :=
  C3_headerless_single_section _ (by decide) (by decide)

theorem sectionsLoop_some_ne_nil : ∀ (ls acc : List (List Char)) (k : Nat) (hd : List Char),
    sectionsLoop (some (k, hd)) acc ls ≠ [] := by
  intro ls
  induction ls with
  | nil => intro acc k hd; simp [sectionsLoop]
  | cons l rest ih =>
    intro acc k hd
    cases hl : headerMatch l with
    | none =>
      rw [show sectionsLoop (some (k, hd)) acc (l :: rest) =
          sectionsLoop (some (k, hd)) (acc ++ [l]) rest from by simp only [sectionsLoop, hl]]
      exact ih (acc ++ [l]) k hd
    | some kh =>
      obtain ⟨k', h'⟩ := kh
      simp only [sectionsLoop, hl]
      simp

theorem sectionsLoop_none_ne_nil : ∀ (ls acc : List (List Char)),
    (∃ l ∈ ls, (headerMatch l).isSome) → sectionsLoop none acc ls ≠ [] := by
  intro ls
  induction ls with
  | nil =>
    rintro acc ⟨l, hl, _⟩
    exact absurd hl (List.not_mem_nil l)
  | cons l rest ih =>
    rintro acc ⟨x, hx, hs⟩
    cases hl : headerMatch l with
    | some kh =>
      obtain ⟨k', h'⟩ := kh
      simp only [sectionsLoop, hl]
      simpa using sectionsLoop_some_ne_nil rest [] k' h'
    | none =>
      have hxr : x ∈ rest := by
        rcases List.mem_cons.mp hx with rfl | hxr
        · rw [hl] at hs; exact absurd hs (by simp)
        · exact hxr
      rw [show sectionsLoop none acc (l :: rest) = sectionsLoop none acc rest from by
        simp only [sectionsLoop, hl]]
      exact ih acc ⟨x, hxr, hs⟩

theorem sectionsLoop_none_dropWhile : ∀ (ls acc : List (List Char)),
    sectionsLoop none acc ls =
      sectionsLoop none acc (ls.dropWhile (fun l => (headerMatch l).isNone)) := by
  intro ls
  induction ls with
  | nil => intro acc; rfl
  | cons l rest ih =>
    intro acc
    cases hl : headerMatch l with
    | none =>
      rw [List.dropWhile_cons]
      simp only [hl, Option.isNone_none, if_true]
      rw [show sectionsLoop none acc (l :: rest) = sectionsLoop none acc rest from by
        simp only [sectionsLoop, hl]]
      exact ih acc
    | some kh =>
      rw [List.dropWhile_cons]
      simp [hl]

/-- C9: for every markdown document containing at least one heading line,
`extract_sections` returns the same sections as it does for the document with
every line preceding the first heading line removed — the pre-heading lines
are silently discarded and contribute to no returned Section. -/
theorem C9_pre_heading_lines_discarded (md : List Char)
    (hh : ∃ l ∈ splitLines md, (headerMatch l).isSome) :
    extract_sections md =
      extract_sections
        (joinLines ((splitLines md).dropWhile (fun l => (headerMatch l).isNone))) := by
  have hne : (splitLines md).dropWhile (fun l => (headerMatch l).isNone) ≠ [] := by
    intro hnil
    obtain ⟨l, hl, hs⟩ := hh
    have hall := List.dropWhile_eq_nil_iff.mp hnil l hl
    simp only [Option.isNone_iff_eq_none] at hall
    rw [hall] at hs
    exact absurd hs (by simp)
  have hnl : ∀ l ∈ (splitLines md).dropWhile (fun l => (headerMatch l).isNone), '\n' ∉ l :=
    fun l hl => no_newline_splitLines md l ((List.dropWhile_sublist _).mem hl)
  have hsplit := splitLines_joinLines _ hne hnl
  have hloop := sectionsLoop_none_dropWhile (splitLines md) []
  have hne1 : sectionsLoop none [] (splitLines md) ≠ [] := sectionsLoop_none_ne_nil _ [] hh
  obtain ⟨s, ss, hss⟩ : ∃ s ss, sectionsLoop none [] (splitLines md) = s :: ss := by
    cases hr : sectionsLoop none [] (splitLines md) with
    | nil => exact absurd hr hne1
    | cons a b => exact ⟨a, b, rfl⟩
  unfold extract_sections
  rw [hsplit, ← hloop, hss]

/-- Witness for C9 at a concrete document with a discarded prefix line. -/
theorem C9_pre_heading_lines_discarded_witness :
    extract_sections "intro\n# H\nbody".data =
      extract_sections
        (joinLines ((splitLines "intro\n# H\nbody".data).dropWhile
          (fun l => (headerMatch l).isNone))) :=
  C9_pre_heading_lines_discarded _ (by decide)

theorem sectionsLoop_render : ∀ (ls acc : List (List Char)) (k : Nat) (hd : List Char),
    goodTail ls = true →
    (∀ x ∈ acc, '\n' ∉ x) →
    (∀ x ∈ ls, '\n' ∉ x) →
    (acc = [] → ∃ l' ls', ls = l' :: ls' ∧ headerMatch l' = none) →
    (sectionsLoop (some (k, hd)) acc ls).flatMap renderSectionLines =
      mkHeadLine k hd :: (acc ++ ls) := by
  intro ls
  induction ls with
  | nil =>
    intro acc k hd _ hnlacc _ hne
    have hacc : acc ≠ [] := by
      intro h0
      obtain ⟨l', ls', heq, _⟩ := hne h0
      exact absurd heq (by simp)
    show ([(⟨k, hd, joinLines acc⟩ : Section)]).flatMap renderSectionLines = _
    simp only [List.flatMap_cons, List.flatMap_nil, List.append_nil, renderSectionLines]
    rw [splitLines_joinLines acc hacc hnlacc]
  | cons l rest ih =>
    intro acc k hd hgt hnlacc hnlls hne
    cases hl : headerMatch l with
    | none =>
      have hgt' : goodTail rest = true := by
        have hg : goodTail (l :: rest) = true := hgt
        simpa only [goodTail, hl] using hg
      rw [show sectionsLoop (some (k, hd)) acc (l :: rest) =
          sectionsLoop (some (k, hd)) (acc ++ [l]) rest from by simp only [sectionsLoop, hl]]
      rw [ih (acc ++ [l]) k hd hgt'
        (fun x hx => by
          rcases List.mem_append.mp hx with hxa | hxl
          · exact hnlacc x hxa
          · rw [List.mem_singleton.mp hxl]
            exact hnlls l (List.mem_cons_self l rest))
        (fun x hx => hnlls x (List.mem_cons_of_mem l hx))
        (fun h0 => absurd h0 (by simp))]
      simp
    | some kh =>
      obtain ⟨k', h'⟩ := kh
      have hg : goodTail (l :: rest) = true := hgt
      simp only [goodTail, hl, Bool.and_eq_true, decide_eq_true_eq] at hg
      obtain ⟨⟨hcanon, hnext⟩, hgt'⟩ := hg
      cases rest with
      | nil => simp at hnext
      | cons l'' rs =>
        have hnone'' : headerMatch l'' = none := by
          simpa [Option.isNone_iff_eq_none] using hnext
        have hacc : acc ≠ [] := by
          intro h0
          obtain ⟨l', ls', heq, hn⟩ := hne h0
          injection heq with e1 _
          rw [← e1] at hn
          rw [hl] at hn
          exact Option.noConfusion hn
        rw [show sectionsLoop (some (k, hd)) acc (l :: l'' :: rs) =
            ⟨k, hd, joinLines acc⟩ :: sectionsLoop (some (k', h')) [] (l'' :: rs) from by
          simp only [sectionsLoop, hl]
          rfl]
        rw [List.flatMap_cons]
        rw [ih [] k' h' hgt'
          (fun x hx => by cases hx)
          (fun x hx => hnlls x (List.mem_cons_of_mem l hx))
          (fun _ => ⟨l'', rs, rfl, hnone''⟩)]
        show (mkHeadLine k hd :: splitLines (joinLines acc)) ++ _ = _
        rw [splitLines_joinLines acc hacc hnlacc, ← hcanon]
        simp

/-- C6 counterexample: the section list of `"intro\n# H\nbody"` drops the
pre-heading line `"intro"` entirely, so no rendering of the returned sections
reconstructs a document equivalent to the input — the difference is lost
content, not heading-marker normalization. -/
theorem C6_counterexample :
    extract_sections "intro\n# H\nbody".data = [⟨1, "H".data, "body".data⟩] ∧
    reconstruct [⟨1, "H".data, "body".data⟩] = "# H\nbody".data ∧
    reconstruct (extract_sections "intro\n# H\nbody".data) ≠ "intro\n# H\nbody".data :=
  ⟨by decide, by decide, by decide⟩

/-- C6 amended: for every document whose first line is a heading line, whose
heading lines are written canonically (`'#' * level` + one space + trimmed
heading text), and whose every heading line is followed by at least one
non-heading line, concatenating all returned Sections — each rendered as its
heading marker, heading text, and body — reconstructs the document exactly. -/
theorem C6_heading_led_roundtrip (md : List Char) (hwf : wfDoc md = true) :
    reconstruct (extract_sections md) = md := by
  obtain ⟨l0, rest, hls⟩ : ∃ l0 rest, splitLines md = l0 :: rest := by
    cases hr : splitLines md with
    | nil => exact absurd hr (splitLines_ne_nil md)
    | cons a b => exact ⟨a, b, rfl⟩
  unfold wfDoc at hwf
  rw [hls] at hwf
  simp only [Bool.and_eq_true] at hwf
  obtain ⟨hsome, hgt⟩ := hwf
  obtain ⟨⟨k, hd⟩, hl0⟩ : ∃ kh, headerMatch l0 = some kh := Option.isSome_iff_exists.mp hsome
  simp only [goodTail, hl0, Bool.and_eq_true, decide_eq_true_eq] at hgt
  obtain ⟨⟨hcanon, hnext⟩, hgt'⟩ := hgt
  cases rest with
  | nil => simp at hnext
  | cons l'' rs =>
    have hnone'' : headerMatch l'' = none := by
      simpa [Option.isNone_iff_eq_none] using hnext
    have hnlls : ∀ x ∈ l0 :: l'' :: rs, '\n' ∉ x := by
      rw [← hls]
      exact fun x hx => no_newline_splitLines md x hx
    have hrender := sectionsLoop_render (l'' :: rs) [] k hd hgt'
      (fun x hx => by cases hx)
      (fun x hx => hnlls x (List.mem_cons_of_mem l0 hx))
      (fun _ => ⟨l'', rs, rfl, hnone''⟩)
    have hloop : sectionsLoop none [] (splitLines md) =
        sectionsLoop (some (k, hd)) [] (l'' :: rs) := by
      rw [hls]
      simp only [sectionsLoop, hl0]
      rfl
    have hes : extract_sections md = sectionsLoop (some (k, hd)) [] (l'' :: rs) := by
      unfold extract_sections
      rw [hloop]
      obtain ⟨s, ss, hss⟩ : ∃ s ss, sectionsLoop (some (k, hd)) [] (l'' :: rs) = s :: ss := by
        cases hr : sectionsLoop (some (k, hd)) [] (l'' :: rs) with
        | nil => exact absurd hr (sectionsLoop_some_ne_nil (l'' :: rs) [] k hd)
        | cons a b => exact ⟨a, b, rfl⟩
      rw [hss]
    rw [hes]
    unfold reconstruct
    rw [hrender, List.nil_append, ← hcanon, ← hls, joinLines_splitLines]

/-- Witness for C6 at the spec's own example document. -/
theorem C6_heading_led_roundtrip_witness :
    reconstruct (extract_sections "# H\nfoo\n## I\nbar".data) = "# H\nfoo\n## I\nbar".data :=
  C6_heading_led_roundtrip _ (by decide)
